import Mathlib

/-!
Verification of the hooks middleware engine (src/hooks.js).

The engine wraps a callback-style method with ordered before/after hook
chains.  We embed the chain-execution functions `runBeforeHook`,
`runOriginalFunction` and `runAfterHook`, the registration bookkeeping
(`_hook`, `before`, `after`, `removeBefore`, `removeAfter`), and prove the
spec's testable properties over the resulting event traces.

Modelling conventions:
- JavaScript values that flow through argument vectors are modelled by
  `JSVal`; engine-created continuations appear as the marker `JSVal.cont`.
- A hook is modelled by its declared parameter count (`arity`, the source's
  `fn.length`) together with a response function giving, for each call
  vector the hook receives, the argument list it passes to its continuation.
  This builds in the single-shot continuation discipline the design demands
  ("calling it more than once is undefined by this design").
- The target method is modelled by the argument list it passes to its
  trailing callback, as a function of the call vector it receives.
- An invocation produces a `List Event` recording, in execution order, each
  hook invocation (with the exact call vector), each target invocation, each
  delivery to the original caller's terminal callback, and any synchronously
  thrown configuration error.
-/

namespace HooksJS

/-- JavaScript values flowing through the argument vectors. `cont` marks a
continuation function created by the chain engine; `func` is an opaque
user-supplied function value (such as the caller's terminal callback). -/
inductive JSVal where
  | null
  | undefined
  | bool (b : Bool)
  | num (n : Int)
  | str (s : String)
  | error (msg : String)
  | func (id : Nat)
  | cont
deriving DecidableEq, Repr

/-- The JavaScript test `x === null || x === undefined`. -/
def isNullish : JSVal → Bool
  | .null => true
  | .undefined => true
  | _ => false

/-- The JavaScript test `x instanceof Error`. -/
def isError : JSVal → Bool
  | .error _ => true
  | _ => false

/-- JavaScript truthiness. -/
def truthy : JSVal → Bool
  | .null => false
  | .undefined => false
  | .bool b => b
  | .num n => decide (n ≠ 0)
  | .str s => decide (s ≠ "")
  | .error _ => true
  | .func _ => true
  | .cont => true

/-- Reading slot `i` of a JavaScript arguments list: absent slots read as
`undefined`. -/
def argOrUndef (l : List JSVal) (i : Nat) : JSVal := l.getD i JSVal.undefined

/-- The shared continuation branch condition of both chains
(src/hooks.js lines 122-123 and 193-194): the received arguments override the
threaded vector when `(err === null || err === undefined) && arguments.length > 1
|| (err !== null && err !== undefined)`. -/
def overridesArgs (res : List JSVal) : Bool :=
  (isNullish (argOrUndef res 0) && decide (1 < res.length)) ||
    !isNullish (argOrUndef res 0)

/-- The JavaScript array update `arr[i] = v` followed by `Function.apply`:
in-range slots are replaced, an out-of-range nonnegative index extends the
array with holes that `apply` passes as `undefined`. -/
def setExtend (l : List JSVal) (i : Nat) (v : JSVal) : List JSVal :=
  if i < l.length then l.set i v
  else l ++ List.replicate (i - l.length) JSVal.undefined ++ [v]

/-- A registered hook: its declared parameter count (the source inspects
`fn.length`) and, for every call vector it is applied to, the argument list
it eventually passes to its single-use continuation. -/
structure Hook where
  arity : Nat
  respond : List JSVal → List JSVal

/-- One observable step of a hooked invocation. -/
inductive Event where
  | beforeCall (i : Nat) (v : List JSVal)
  | targetCall (v : List JSVal)
  | afterCall (j : Nat) (v : List JSVal)
  | deliver (v : List JSVal)
  | thrownErr (msg : String)
deriving DecidableEq, Repr

/-- Message of the synchronous arity error for before-hooks
(src/hooks.js line 109). -/
def beforeArityMsg : String :=
  "Your before must have a next argument -- e.g., function(next, ...)"

/-- Message of the synchronous arity error for after-hooks
(src/hooks.js line 185). -/
def afterArityMsg : String :=
  "Your after must have a next argument -- e.g., function(next, ...)"

/-- Function `runAfterHook` (src/hooks.js lines 168-209), with the hook table frozen
for the duration of the run, recursing over the remaining after-hooks while
tracking the counter `j`.  Faithful detail: the continuation at line 202
passes the ENCLOSING call's `error` (not `afterHookError`) to the recursive
call, so the threaded error never changes inside the chain; `error` is
therefore a fixed parameter here. -/
def runAfterAux (error : JSVal) : List Hook → Nat → List JSVal → List Event
  | [], _, cbArgs =>
    if isError error then [.deliver [error]] else [.deliver cbArgs]
  | hk :: rest, j, cbArgs =>
    if isError error then [.deliver [error]]
    else if hk.arity = 0 then [.thrownErr afterArityMsg]
    else
      let callVec := cbArgs ++ [JSVal.cont]
      let res := hk.respond callVec
      let newCbArgs := if overridesArgs res then res.tail else cbArgs
      .afterCall j callVec :: runAfterAux error rest (j + 1) newCbArgs

/-- Entry into the after chain at counter 0. -/
def runAfterHook (afterHooks : List Hook) (error : JSVal)
    (cbArgs : List JSVal) : List Event :=
  runAfterAux error afterHooks 0 cbArgs

/-- Function `runOriginalFunction` (src/hooks.js lines 144-160): copies the current
(before-chain threaded) vector, injects the interception callback at slot
`originalArguments.length - 1`, invokes the target, and enters the after
chain with the target's callback arguments (or, when the target passed none,
the threaded vector). -/
def runOriginalFunction (afterHooks : List Hook)
    (target : List JSVal → List JSVal)
    (origArgs cur : List JSVal) : List Event :=
  let tArgs :=
    if origArgs.length = 0 then cur
    else setExtend cur (origArgs.length - 1) JSVal.cont
  let cbArgs := target tArgs
  let afterEntryArgs := if 0 < cbArgs.length then cbArgs else cur
  .targetCall tArgs :: runAfterHook afterHooks (argOrUndef cbArgs 0) afterEntryArgs

/-- Function `runBeforeHook` (src/hooks.js lines 93-138), recursing over the remaining
before-hooks while tracking the counter `i`.  Each hook receives a copy of
the ORIGINAL argument vector with its last slot replaced by the continuation;
the continuation threads the override decision into `cur` and recurses with
the hook's reported first argument as the new error. -/
def runBeforeAux (afterHooks : List Hook) (target : List JSVal → List JSVal) :
    JSVal → List Hook → Nat → List JSVal → List JSVal → List Event
  | error, [], _, origArgs, cur =>
    if isError error then [.deliver [error]]
    else runOriginalFunction afterHooks target origArgs cur
  | error, hk :: rest, i, origArgs, cur =>
    if isError error then [.deliver [error]]
    else if hk.arity = 0 then [.thrownErr beforeArityMsg]
    else
      let callVec := origArgs.set (origArgs.length - 1) JSVal.cont
      let res := hk.respond callVec
      let newCur := if overridesArgs res then res.tail else cur
      .beforeCall i callVec ::
        runBeforeAux afterHooks target (argOrUndef res 0) rest (i + 1) origArgs newCur

/-- The installed wrapper (src/hooks.js lines 80-85): starts the before chain
at counter 0 with the call-time arguments as both the original and the
current vector, and `null` as the initial error. -/
def invokeHooked (beforeHooks afterHooks : List Hook)
    (target : List JSVal → List JSVal) (args : List JSVal) : List Event :=
  runBeforeAux afterHooks target JSVal.null beforeHooks 0 args args

/-- Before-hook invocations recorded in a trace, with their call vectors. -/
def beforeCallsOf (t : List Event) : List (Nat × List JSVal) :=
  t.filterMap fun e =>
    match e with
    | .beforeCall i v => some (i, v)
    | _ => none

/-- Target invocations recorded in a trace, with their call vectors. -/
def targetCallsOf (t : List Event) : List (List JSVal) :=
  t.filterMap fun e =>
    match e with
    | .targetCall v => some v
    | _ => none

/-- After-hook invocations recorded in a trace, with their call vectors. -/
def afterCallsOf (t : List Event) : List (Nat × List JSVal) :=
  t.filterMap fun e =>
    match e with
    | .afterCall j v => some (j, v)
    | _ => none

/-- Argument lists delivered to the original caller's terminal callback. -/
def deliveriesOf (t : List Event) : List (List JSVal) :=
  t.filterMap fun e =>
    match e with
    | .deliver v => some v
    | _ => none

/-- Configuration errors thrown synchronously during a trace. -/
def thrownOf (t : List Event) : List String :=
  t.filterMap fun e =>
    match e with
    | .thrownErr m => some m
    | _ => none

/-- The shape of an event: which step occurred, forgetting the vectors. -/
inductive EventShape where
  | b (i : Nat)
  | t
  | a (j : Nat)
  | d
  | x
deriving DecidableEq, Repr

/-- Forget an event's data, keeping which step it was. -/
def eventShape : Event → EventShape
  | .beforeCall i _ => .b i
  | .targetCall _ => .t
  | .afterCall j _ => .a j
  | .deliver _ => .d
  | .thrownErr _ => .x

/-- The sequence of step shapes of a trace. -/
def shapeOf (t : List Event) : List EventShape := t.map eventShape

/-- The before chain's threaded "current" vector after a run of hooks: each
hook is shown the original vector (continuation in the last slot) and its
response either overrides the current vector or passes it through. -/
def threadCur (orig : List JSVal) : List Hook → List JSVal → List JSVal
  | [], cur => cur
  | hk :: rest, cur =>
    let res := hk.respond (orig.set (orig.length - 1) JSVal.cont)
    threadCur orig rest (if overridesArgs res then res.tail else cur)

/-- The after chain's threaded result vector after a run of hooks: each hook
is shown the current result vector with the continuation appended, and its
response either overrides the vector or passes it through. -/
def threadAfter : List Hook → List JSVal → List JSVal
  | [], c => c
  | hk :: rest, c =>
    let res := hk.respond (c ++ [JSVal.cont])
    threadAfter rest (if overridesArgs res then res.tail else c)

/-- The after chain's entry result vector, mirroring `runOriginalFunction`
(src/hooks.js lines 144-156): the target is called on the threaded vector
`cur` with the interception callback injected at slot
`origArgs.length - 1`, and the after chain starts from the arguments the
target passed to that callback (or from `cur` when it passed none). -/
def afterEntry (origArgs cur : List JSVal)
    (target : List JSVal → List JSVal) : List JSVal :=
  let tArgs :=
    if origArgs.length = 0 then cur
    else setExtend cur (origArgs.length - 1) JSVal.cont
  let cbArgs := target tArgs
  if 0 < cbArgs.length then cbArgs else cur

/-- The event prefix contributed by a run of after-hooks starting at counter
`j` over result vector `c`. -/
def afterCallSeq : List Hook → Nat → List JSVal → List Event
  | [], _, _ => []
  | hk :: rest, j, c =>
    let res := hk.respond (c ++ [JSVal.cont])
    .afterCall j (c ++ [JSVal.cont]) ::
      afterCallSeq rest (j + 1) (if overridesArgs res then res.tail else c)

/-- A hook whose continuation is never invoked with an Error first argument. -/
def neverErrors (hk : Hook) : Prop :=
  ∀ v, isError (argOrUndef (hk.respond v) 0) = false

/-- A well-formed hook that never reports an error: it declares at least the
continuation parameter and never passes an Error to its continuation. -/
def goodHook (hk : Hook) : Prop := 0 < hk.arity ∧ neverErrors hk

/-- A target method whose callback's first argument is never an Error. -/
def targetSucceeds (target : List JSVal → List JSVal) : Prop :=
  ∀ v, isError (argOrUndef (target v) 0) = false

/-- The value stored in the host's method slot for one method name: the
captured original operation, possibly surrounded by installed wrappers
(src/hooks.js lines 78-85 capture `originalFunction` and overwrite the slot). -/
inductive MethodSlot where
  | original
  | wrapped (inner : MethodSlot)
deriving DecidableEq, Repr

/-- Per-method-name registration state of the host: the current method slot
and the lazily created before/after hook tables (`none` models an absent
`this._before[functionName]` entry). -/
structure HostState where
  slot : MethodSlot
  beforeTbl : Option (List Hook)
  afterTbl : Option (List Hook)

/-- A host on which the method name has never been hooked. -/
def freshHost : HostState := ⟨.original, none, none⟩

/-- Function `_isHookedAlready` (src/hooks.js lines 59-61): the before table entry for
the name exists. -/
def _isHookedAlready (h : HostState) : Bool := h.beforeTbl.isSome

/-- Function `_setupHooks` (src/hooks.js lines 27-33): lazily create both hook tables
for the name. -/
def _setupHooks (h : HostState) : HostState :=
  { h with beforeTbl := some (h.beforeTbl.getD []),
           afterTbl := some (h.afterTbl.getD []) }

/-- Function `_hook` (src/hooks.js lines 67-210): a no-op when the name is already
hooked, otherwise create the tables and replace the method slot with a
wrapper around its captured current value. -/
def _hook (h : HostState) : HostState :=
  if _isHookedAlready h then h
  else
    let h' := _setupHooks h
    { h' with slot := .wrapped h'.slot }

/-- Function `before` (src/hooks.js lines 216-222): ensure the name is hooked, then
append the function to the before table. -/
def before (h : HostState) (fn : Hook) : HostState :=
  let h' := _hook h
  { h' with beforeTbl := some (h'.beforeTbl.getD [] ++ [fn]) }

/-- Function `after` (src/hooks.js lines 228-232): ensure the name is hooked, then
append the function to the after table. -/
def after (h : HostState) (fn : Hook) : HostState :=
  let h' := _hook h
  { h' with afterTbl := some (h'.afterTbl.getD [] ++ [fn]) }

/-- A registration call made by the host code. -/
inductive RegOp where
  | bef (fn : Hook)
  | aft (fn : Hook)

/-- Apply one registration call. -/
def applyReg (h : HostState) (op : RegOp) : HostState :=
  match op with
  | .bef fn => before h fn
  | .aft fn => after h fn

/-- Apply a sequence of registration calls. -/
def registerAll (ops : List RegOp) (h : HostState) : HostState :=
  ops.foldl applyReg h

/-- Function `removeAfter` (src/hooks.js lines 238-247): with no function argument
(`none`) the whole after list is emptied; with a function, every entry
identical to it is filtered out. -/
def removeAfter {α : Type} [DecidableEq α] (tbl : List α)
    (fnToRemove : Option α) : List α :=
  match fnToRemove with
  | none => []
  | some fn => tbl.filter fun currFn => decide (currFn ≠ fn)

/-- Function `removeBefore` (src/hooks.js lines 253-262): with no function argument
(`none`) the whole before list is emptied; with a function, every entry
identical to it is filtered out. -/
def removeBefore {α : Type} [DecidableEq α] (tbl : List α)
    (fnToRemove : Option α) : List α :=
  match fnToRemove with
  | none => []
  | some fn => tbl.filter fun currFn => decide (currFn ≠ fn)

/-- A minimal well-formed hook: declares only its continuation and calls it
with no arguments (pure pass-through). -/
def passHook1 : Hook := ⟨1, fun _ => []⟩

/-- A before-hook overriding the argument vector with `(null, "A", 5)`. -/
def overrideHookA5 : Hook := ⟨3, fun _ => [.null, .str "A", .num 5]⟩

/-- A hook that reports the Error "boom" through its continuation. -/
def errHookBoom : Hook := ⟨1, fun _ => [.error "boom"]⟩

/-- A malformed hook declaring zero parameters. -/
def zeroArityHook : Hook := ⟨0, fun _ => []⟩

/-- A target whose callback receives only `null`. -/
def tgtNull : List JSVal → List JSVal := fun _ => [JSVal.null]

/-- A target whose callback receives `(null, "ok")`. -/
def tgtOk : List JSVal → List JSVal := fun _ => [JSVal.null, JSVal.str "ok"]

/-- A target whose callback receives the truthy non-Error string "boom". -/
def tgtStrBoom : List JSVal → List JSVal := fun _ => [JSVal.str "boom"]

/-- A target whose callback receives the Error "boom". -/
def tgtErrBoom : List JSVal → List JSVal := fun _ => [JSVal.error "boom"]

end HooksJS

namespace HooksJS

@[simp] theorem beforeCallsOf_nil : beforeCallsOf [] = [] := rfl

@[simp] theorem targetCallsOf_nil : targetCallsOf [] = [] := rfl

@[simp] theorem afterCallsOf_nil : afterCallsOf [] = [] := rfl

@[simp] theorem deliveriesOf_nil : deliveriesOf [] = [] := rfl

@[simp] theorem thrownOf_nil : thrownOf [] = [] := rfl

@[simp] theorem beforeCallsOf_append (t1 t2 : List Event) :
    beforeCallsOf (t1 ++ t2) = beforeCallsOf t1 ++ beforeCallsOf t2 := by
  simp [beforeCallsOf]

@[simp] theorem targetCallsOf_append (t1 t2 : List Event) :
    targetCallsOf (t1 ++ t2) = targetCallsOf t1 ++ targetCallsOf t2 := by
  simp [targetCallsOf]

@[simp] theorem afterCallsOf_append (t1 t2 : List Event) :
    afterCallsOf (t1 ++ t2) = afterCallsOf t1 ++ afterCallsOf t2 := by
  simp [afterCallsOf]

@[simp] theorem deliveriesOf_append (t1 t2 : List Event) :
    deliveriesOf (t1 ++ t2) = deliveriesOf t1 ++ deliveriesOf t2 := by
  simp [deliveriesOf]

@[simp] theorem thrownOf_append (t1 t2 : List Event) :
    thrownOf (t1 ++ t2) = thrownOf t1 ++ thrownOf t2 := by
  simp [thrownOf]

@[simp] theorem beforeCallsOf_b (i : Nat) (v : List JSVal) (t : List Event) :
    beforeCallsOf (Event.beforeCall i v :: t) = (i, v) :: beforeCallsOf t := rfl

@[simp] theorem beforeCallsOf_t (v : List JSVal) (t : List Event) :
    beforeCallsOf (Event.targetCall v :: t) = beforeCallsOf t := rfl

@[simp] theorem beforeCallsOf_a (j : Nat) (v : List JSVal) (t : List Event) :
    beforeCallsOf (Event.afterCall j v :: t) = beforeCallsOf t := rfl

@[simp] theorem beforeCallsOf_d (v : List JSVal) (t : List Event) :
    beforeCallsOf (Event.deliver v :: t) = beforeCallsOf t := rfl

@[simp] theorem beforeCallsOf_x (m : String) (t : List Event) :
    beforeCallsOf (Event.thrownErr m :: t) = beforeCallsOf t := rfl

@[simp] theorem targetCallsOf_b (i : Nat) (v : List JSVal) (t : List Event) :
    targetCallsOf (Event.beforeCall i v :: t) = targetCallsOf t := rfl

@[simp] theorem targetCallsOf_t (v : List JSVal) (t : List Event) :
    targetCallsOf (Event.targetCall v :: t) = v :: targetCallsOf t := rfl

@[simp] theorem targetCallsOf_a (j : Nat) (v : List JSVal) (t : List Event) :
    targetCallsOf (Event.afterCall j v :: t) = targetCallsOf t := rfl

@[simp] theorem targetCallsOf_d (v : List JSVal) (t : List Event) :
    targetCallsOf (Event.deliver v :: t) = targetCallsOf t := rfl

@[simp] theorem targetCallsOf_x (m : String) (t : List Event) :
    targetCallsOf (Event.thrownErr m :: t) = targetCallsOf t := rfl

@[simp] theorem afterCallsOf_b (i : Nat) (v : List JSVal) (t : List Event) :
    afterCallsOf (Event.beforeCall i v :: t) = afterCallsOf t := rfl

@[simp] theorem afterCallsOf_t (v : List JSVal) (t : List Event) :
    afterCallsOf (Event.targetCall v :: t) = afterCallsOf t := rfl

@[simp] theorem afterCallsOf_a (j : Nat) (v : List JSVal) (t : List Event) :
    afterCallsOf (Event.afterCall j v :: t) = (j, v) :: afterCallsOf t := rfl

@[simp] theorem afterCallsOf_d (v : List JSVal) (t : List Event) :
    afterCallsOf (Event.deliver v :: t) = afterCallsOf t := rfl

@[simp] theorem afterCallsOf_x (m : String) (t : List Event) :
    afterCallsOf (Event.thrownErr m :: t) = afterCallsOf t := rfl

@[simp] theorem deliveriesOf_b (i : Nat) (v : List JSVal) (t : List Event) :
    deliveriesOf (Event.beforeCall i v :: t) = deliveriesOf t := rfl

@[simp] theorem deliveriesOf_t (v : List JSVal) (t : List Event) :
    deliveriesOf (Event.targetCall v :: t) = deliveriesOf t := rfl

@[simp] theorem deliveriesOf_a (j : Nat) (v : List JSVal) (t : List Event) :
    deliveriesOf (Event.afterCall j v :: t) = deliveriesOf t := rfl

@[simp] theorem deliveriesOf_d (v : List JSVal) (t : List Event) :
    deliveriesOf (Event.deliver v :: t) = v :: deliveriesOf t := rfl

@[simp] theorem deliveriesOf_x (m : String) (t : List Event) :
    deliveriesOf (Event.thrownErr m :: t) = deliveriesOf t := rfl

@[simp] theorem thrownOf_b (i : Nat) (v : List JSVal) (t : List Event) :
    thrownOf (Event.beforeCall i v :: t) = thrownOf t := rfl

@[simp] theorem thrownOf_t (v : List JSVal) (t : List Event) :
    thrownOf (Event.targetCall v :: t) = thrownOf t := rfl

@[simp] theorem thrownOf_a (j : Nat) (v : List JSVal) (t : List Event) :
    thrownOf (Event.afterCall j v :: t) = thrownOf t := rfl

@[simp] theorem thrownOf_d (v : List JSVal) (t : List Event) :
    thrownOf (Event.deliver v :: t) = thrownOf t := rfl

@[simp] theorem thrownOf_x (m : String) (t : List Event) :
    thrownOf (Event.thrownErr m :: t) = m :: thrownOf t := rfl

@[simp] theorem shapeOf_nil : shapeOf [] = [] := rfl

@[simp] theorem shapeOf_cons (e : Event) (t : List Event) :
    shapeOf (e :: t) = eventShape e :: shapeOf t := rfl

@[simp] theorem shapeOf_append (t1 t2 : List Event) :
    shapeOf (t1 ++ t2) = shapeOf t1 ++ shapeOf t2 := by
  simp [shapeOf]

end HooksJS

namespace HooksJS

theorem runBeforeAux_errIrrel (aft : List Hook) (tgt : List JSVal → List JSVal)
    (e e' : JSVal) (rem : List Hook) (i : Nat) (orig cur : List JSVal)
    (he : isError e = false) (he' : isError e' = false) :
    runBeforeAux aft tgt e rem i orig cur = runBeforeAux aft tgt e' rem i orig cur := by
  cases rem <;> simp [runBeforeAux, he, he']

theorem runAfterAux_split (e : JSVal) (l1 l2 : List Hook) (j : Nat)
    (c : List JSVal) (he : isError e = false) (h1 : ∀ hk ∈ l1, 0 < hk.arity) :
    runAfterAux e (l1 ++ l2) j c =
      afterCallSeq l1 j c ++
        runAfterAux e l2 (j + l1.length) (threadAfter l1 c) := by
  induction l1 generalizing j c with
  | nil => simp [afterCallSeq, threadAfter]
  | cons hk rest ih =>
    have har : hk.arity ≠ 0 :=
      Nat.pos_iff_ne_zero.mp (h1 hk (List.mem_cons_self _ _))
    have hrest : ∀ x ∈ rest, 0 < x.arity :=
      fun x hx => h1 x (List.mem_cons_of_mem _ hx)
    simp only [List.cons_append, runAfterAux, he, Bool.false_eq_true, if_false,
      har, afterCallSeq, threadAfter, List.length_cons, List.append_eq]
    rw [ih _ _ hrest, show j + (rest.length + 1) = j + 1 + rest.length by omega]

end HooksJS

namespace HooksJS

theorem runBeforeAux_split (aft : List Hook) (tgt : List JSVal → List JSVal)
    (e : JSVal) (l1 l2 : List Hook) (i : Nat) (orig cur : List JSVal)
    (he : isError e = false) (h1 : ∀ hk ∈ l1, goodHook hk) :
    runBeforeAux aft tgt e (l1 ++ l2) i orig cur =
      ((List.range' i l1.length).map fun k =>
        Event.beforeCall k (orig.set (orig.length - 1) JSVal.cont))
      ++ runBeforeAux aft tgt JSVal.null l2 (i + l1.length) orig
          (threadCur orig l1 cur) := by
  induction l1 generalizing e i cur with
  | nil =>
    simp only [List.nil_append, List.length_nil, List.range'_zero, List.map_nil,
      Nat.add_zero, threadCur]
    exact runBeforeAux_errIrrel aft tgt e JSVal.null l2 i orig cur he rfl
  | cons hk rest ih =>
    obtain ⟨har, hne⟩ := h1 hk (List.mem_cons_self _ _)
    have har' : hk.arity ≠ 0 := Nat.pos_iff_ne_zero.mp har
    have hrest : ∀ x ∈ rest, goodHook x :=
      fun x hx => h1 x (List.mem_cons_of_mem _ hx)
    have he1 : isError
        (argOrUndef (hk.respond (orig.set (orig.length - 1) JSVal.cont)) 0) = false :=
      hne _
    simp only [List.cons_append, runBeforeAux, he, Bool.false_eq_true, if_false,
      har', threadCur, List.length_cons, List.append_eq, List.range'_succ,
      List.map_cons]
    rw [ih _ _ _ he1 hrest,
      show i + (rest.length + 1) = i + 1 + rest.length by omega]

end HooksJS

namespace HooksJS

theorem afterCallSeq_shape (l : List Hook) (j : Nat) (c : List JSVal) :
    shapeOf (afterCallSeq l j c) = (List.range' j l.length).map EventShape.a := by
  induction l generalizing j c with
  | nil => rfl
  | cons hk rest ih =>
    simp [afterCallSeq, eventShape, List.range'_succ, ih]

theorem afterCallSeq_beforeCalls (l : List Hook) (j : Nat) (c : List JSVal) :
    beforeCallsOf (afterCallSeq l j c) = [] := by
  induction l generalizing j c with
  | nil => rfl
  | cons hk rest ih => simp [afterCallSeq, ih]

theorem afterCallSeq_targetCalls (l : List Hook) (j : Nat) (c : List JSVal) :
    targetCallsOf (afterCallSeq l j c) = [] := by
  induction l generalizing j c with
  | nil => rfl
  | cons hk rest ih => simp [afterCallSeq, ih]

theorem afterCallSeq_deliveries (l : List Hook) (j : Nat) (c : List JSVal) :
    deliveriesOf (afterCallSeq l j c) = [] := by
  induction l generalizing j c with
  | nil => rfl
  | cons hk rest ih => simp [afterCallSeq, ih]

theorem afterCallSeq_thrown (l : List Hook) (j : Nat) (c : List JSVal) :
    thrownOf (afterCallSeq l j c) = [] := by
  induction l generalizing j c with
  | nil => rfl
  | cons hk rest ih => simp [afterCallSeq, ih]

theorem afterCallSeq_vec (l : List Hook) (j : Nat) (c : List JSVal)
    (p : Nat × List JSVal) (hp : p ∈ afterCallsOf (afterCallSeq l j c)) :
    ∃ c', p.2 = c' ++ [JSVal.cont] := by
  induction l generalizing j c with
  | nil => simp [afterCallSeq] at hp
  | cons hk rest ih =>
    simp only [afterCallSeq, afterCallsOf_a, List.mem_cons] at hp
    rcases hp with hp | hp
    · exact ⟨c, by rw [hp]⟩
    · exact ih _ _ hp

theorem beforeCallsOf_map_b (l : List Nat) (w : List JSVal) :
    beforeCallsOf (l.map fun k => Event.beforeCall k w) =
      l.map fun k => (k, w) := by
  induction l with
  | nil => rfl
  | cons a t ih => simp [ih]

theorem targetCallsOf_map_b (l : List Nat) (w : List JSVal) :
    targetCallsOf (l.map fun k => Event.beforeCall k w) = [] := by
  induction l with
  | nil => rfl
  | cons a t ih => simp [ih]

theorem afterCallsOf_map_b (l : List Nat) (w : List JSVal) :
    afterCallsOf (l.map fun k => Event.beforeCall k w) = [] := by
  induction l with
  | nil => rfl
  | cons a t ih => simp [ih]

theorem deliveriesOf_map_b (l : List Nat) (w : List JSVal) :
    deliveriesOf (l.map fun k => Event.beforeCall k w) = [] := by
  induction l with
  | nil => rfl
  | cons a t ih => simp [ih]

theorem thrownOf_map_b (l : List Nat) (w : List JSVal) :
    thrownOf (l.map fun k => Event.beforeCall k w) = [] := by
  induction l with
  | nil => rfl
  | cons a t ih => simp [ih]

theorem shapeOf_map_b (l : List Nat) (w : List JSVal) :
    shapeOf (l.map fun k => Event.beforeCall k w) = l.map EventShape.b := by
  induction l with
  | nil => rfl
  | cons a t ih => simp [shapeOf, eventShape, ih]

end HooksJS

namespace HooksJS

theorem runAfterAux_nil_ok (e : JSVal) (j : Nat) (c : List JSVal)
    (he : isError e = false) : runAfterAux e [] j c = [.deliver c] := by
  simp [runAfterAux, he]

theorem runAfterAux_err (m : String) (rem : List Hook) (j : Nat)
    (c : List JSVal) :
    runAfterAux (JSVal.error m) rem j c = [.deliver [JSVal.error m]] := by
  cases rem <;> simp [runAfterAux, isError]

theorem runBeforeAux_nil_ok (aft : List Hook) (tgt : List JSVal → List JSVal)
    (e : JSVal) (i : Nat) (orig cur : List JSVal) (he : isError e = false) :
    runBeforeAux aft tgt e [] i orig cur = runOriginalFunction aft tgt orig cur := by
  simp [runBeforeAux, he]

theorem runBeforeAux_err (aft : List Hook) (tgt : List JSVal → List JSVal)
    (m : String) (rem : List Hook) (i : Nat) (orig cur : List JSVal) :
    runBeforeAux aft tgt (JSVal.error m) rem i orig cur =
      [.deliver [JSVal.error m]] := by
  cases rem <;> simp [runBeforeAux, isError]

theorem runAfterAux_delivers_once (e : JSVal) (rem : List Hook) (j : Nat)
    (c : List JSVal) (h : ∀ hk ∈ rem, 0 < hk.arity) :
    (deliveriesOf (runAfterAux e rem j c)).length = 1 ∧
      thrownOf (runAfterAux e rem j c) = [] := by
  induction rem generalizing j c with
  | nil => by_cases he : isError e <;> simp [runAfterAux, he]
  | cons hk rest ih =>
    by_cases he : isError e
    · simp [runAfterAux, he]
    · have har : hk.arity ≠ 0 :=
        Nat.pos_iff_ne_zero.mp (h hk (List.mem_cons_self _ _))
      have hrest : ∀ x ∈ rest, 0 < x.arity :=
        fun x hx => h x (List.mem_cons_of_mem _ hx)
      simp only [runAfterAux, he, Bool.false_eq_true, if_false, har,
        deliveriesOf_a, thrownOf_a]
      exact ih _ _ hrest

theorem runAfterAux_targetCalls (e : JSVal) (rem : List Hook) (j : Nat)
    (c : List JSVal) : targetCallsOf (runAfterAux e rem j c) = [] := by
  induction rem generalizing j c with
  | nil => by_cases he : isError e <;> simp [runAfterAux, he]
  | cons hk rest ih =>
    by_cases he : isError e
    · simp [runAfterAux, he]
    · by_cases har : hk.arity = 0
      · simp [runAfterAux, he, har]
      · simp only [runAfterAux, he, Bool.false_eq_true, if_false, har,
          targetCallsOf_a]
        exact ih _ _

theorem runAfterAux_beforeCalls (e : JSVal) (rem : List Hook) (j : Nat)
    (c : List JSVal) : beforeCallsOf (runAfterAux e rem j c) = [] := by
  induction rem generalizing j c with
  | nil => by_cases he : isError e <;> simp [runAfterAux, he]
  | cons hk rest ih =>
    by_cases he : isError e
    · simp [runAfterAux, he]
    · by_cases har : hk.arity = 0
      · simp [runAfterAux, he, har]
      · simp only [runAfterAux, he, Bool.false_eq_true, if_false, har,
          beforeCallsOf_a]
        exact ih _ _

theorem runAfterAux_vec (e : JSVal) (rem : List Hook) (j : Nat)
    (c : List JSVal) (p : Nat × List JSVal)
    (hp : p ∈ afterCallsOf (runAfterAux e rem j c)) :
    ∃ c', p.2 = c' ++ [JSVal.cont] := by
  induction rem generalizing j c with
  | nil =>
    by_cases he : isError e <;> simp [runAfterAux, he, afterCallsOf] at hp
  | cons hk rest ih =>
    by_cases he : isError e
    · simp [runAfterAux, he, afterCallsOf] at hp
    · by_cases har : hk.arity = 0
      · simp [runAfterAux, he, har, afterCallsOf] at hp
      · simp only [runAfterAux, he, Bool.false_eq_true, if_false, har,
          afterCallsOf_a, List.mem_cons] at hp
        rcases hp with hp | hp
        · exact ⟨c, by rw [hp]⟩
        · exact ih _ _ hp

theorem runBeforeAux_vec (aft : List Hook) (tgt : List JSVal → List JSVal)
    (e : JSVal) (rem : List Hook) (i0 : Nat) (orig cur : List JSVal)
    (p : Nat × List JSVal)
    (hp : p ∈ beforeCallsOf (runBeforeAux aft tgt e rem i0 orig cur)) :
    p.2 = orig.set (orig.length - 1) JSVal.cont := by
  induction rem generalizing e i0 cur with
  | nil =>
    by_cases he : isError e
    · cases e <;> simp [isError] at he
      all_goals simp [runBeforeAux_err, beforeCallsOf] at hp
    · rw [runBeforeAux_nil_ok _ _ _ _ _ _ (Bool.eq_false_iff.mpr he)] at hp
      simp only [runOriginalFunction, runAfterHook, beforeCallsOf_t,
        runAfterAux_beforeCalls] at hp
      exact absurd hp (List.not_mem_nil p)
  | cons hk rest ih =>
    by_cases he : isError e
    · cases e <;> simp [isError] at he
      all_goals simp [runBeforeAux_err, beforeCallsOf] at hp
    · by_cases har : hk.arity = 0
      · simp [runBeforeAux, he, har, beforeCallsOf] at hp
      · simp only [runBeforeAux, he, Bool.false_eq_true, if_false, har,
          beforeCallsOf_b, List.mem_cons] at hp
        rcases hp with hp | hp
        · rw [hp]
        · exact ih _ _ _ hp

theorem runBeforeAux_afterVec (aft : List Hook) (tgt : List JSVal → List JSVal)
    (e : JSVal) (rem : List Hook) (i0 : Nat) (orig cur : List JSVal)
    (p : Nat × List JSVal)
    (hp : p ∈ afterCallsOf (runBeforeAux aft tgt e rem i0 orig cur)) :
    ∃ c', p.2 = c' ++ [JSVal.cont] := by
  induction rem generalizing e i0 cur with
  | nil =>
    by_cases he : isError e
    · cases e <;> simp [isError] at he
      all_goals simp [runBeforeAux_err, afterCallsOf] at hp
    · rw [runBeforeAux_nil_ok _ _ _ _ _ _ (Bool.eq_false_iff.mpr he)] at hp
      simp only [runOriginalFunction, runAfterHook, afterCallsOf_t] at hp
      exact runAfterAux_vec _ _ _ _ _ hp
  | cons hk rest ih =>
    by_cases he : isError e
    · cases e <;> simp [isError] at he
      all_goals simp [runBeforeAux_err, afterCallsOf] at hp
    · by_cases har : hk.arity = 0
      · simp [runBeforeAux, he, har, afterCallsOf] at hp
      · simp only [runBeforeAux, he, Bool.false_eq_true, if_false, har,
          afterCallsOf_b] at hp
        exact ih _ _ _ hp

end HooksJS

namespace HooksJS

theorem runBeforeAux_run_all (aft : List Hook) (tgt : List JSVal → List JSVal)
    (e : JSVal) (bhs : List Hook) (i : Nat) (orig cur : List JSVal)
    (he : isError e = false) (hb : ∀ hk ∈ bhs, goodHook hk) :
    runBeforeAux aft tgt e bhs i orig cur =
      ((List.range' i bhs.length).map fun k =>
        Event.beforeCall k (orig.set (orig.length - 1) JSVal.cont))
      ++ runOriginalFunction aft tgt orig (threadCur orig bhs cur) := by
  have h := runBeforeAux_split aft tgt e bhs [] i orig cur he hb
  rw [List.append_nil] at h
  rw [h, runBeforeAux_nil_ok aft tgt JSVal.null _ _ _ rfl]

theorem runAfterAux_run_all (e : JSVal) (ahs : List Hook) (j : Nat)
    (c : List JSVal) (he : isError e = false) (ha : ∀ hk ∈ ahs, 0 < hk.arity) :
    runAfterAux e ahs j c =
      afterCallSeq ahs j c ++ [.deliver (threadAfter ahs c)] := by
  have h := runAfterAux_split e ahs [] j c he ha
  rw [List.append_nil] at h
  rw [h, runAfterAux_nil_ok _ _ _ he]

theorem invoke_success_shape (bhs ahs : List Hook)
    (tgt : List JSVal → List JSVal) (args : List JSVal)
    (hb : ∀ hk ∈ bhs, goodHook hk) (ha : ∀ hk ∈ ahs, 0 < hk.arity)
    (ht : targetSucceeds tgt) :
    shapeOf (invokeHooked bhs ahs tgt args) =
      (List.range bhs.length).map EventShape.b ++
        EventShape.t :: ((List.range ahs.length).map EventShape.a ++
          [EventShape.d]) := by
  unfold invokeHooked
  rw [runBeforeAux_run_all _ _ JSVal.null _ _ _ _ rfl hb]
  simp only [runOriginalFunction, runAfterHook]
  rw [runAfterAux_run_all _ _ _ _ (ht _) ha]
  simp only [shapeOf_append, shapeOf_map_b, shapeOf_cons, eventShape,
    afterCallSeq_shape, List.range_eq_range']
  rfl

theorem invoke_target_once (bhs ahs : List Hook)
    (tgt : List JSVal → List JSVal) (args : List JSVal)
    (hb : ∀ hk ∈ bhs, goodHook hk) :
    (targetCallsOf (invokeHooked bhs ahs tgt args)).length = 1 := by
  unfold invokeHooked
  rw [runBeforeAux_run_all _ _ JSVal.null _ _ _ _ rfl hb]
  simp only [runOriginalFunction, runAfterHook]
  simp [targetCallsOf_map_b, runAfterAux_targetCalls]

theorem runBeforeAux_delivers_once (aft : List Hook)
    (tgt : List JSVal → List JSVal) (rem : List Hook) (e : JSVal) (i : Nat)
    (orig cur : List JSVal) (hb : ∀ hk ∈ rem, 0 < hk.arity)
    (ha : ∀ hk ∈ aft, 0 < hk.arity) :
    (deliveriesOf (runBeforeAux aft tgt e rem i orig cur)).length = 1 ∧
      thrownOf (runBeforeAux aft tgt e rem i orig cur) = [] := by
  induction rem generalizing e i cur with
  | nil =>
    by_cases he : isError e
    · simp [runBeforeAux, he]
    · rw [runBeforeAux_nil_ok _ _ _ _ _ _ (Bool.eq_false_iff.mpr he)]
      unfold runOriginalFunction runAfterHook
      simpa using runAfterAux_delivers_once _ aft _ _ ha
  | cons hk rest ih =>
    by_cases he : isError e
    · simp [runBeforeAux, he]
    · have har : hk.arity ≠ 0 :=
        Nat.pos_iff_ne_zero.mp (hb hk (List.mem_cons_self _ _))
      have hrest : ∀ x ∈ rest, 0 < x.arity :=
        fun x hx => hb x (List.mem_cons_of_mem _ hx)
      simp only [runBeforeAux, he, Bool.false_eq_true, if_false, har,
        deliveriesOf_b, thrownOf_b]
      exact ih _ _ _ hrest

end HooksJS

namespace HooksJS

/-- Claim C4: for every method with registered before/after lists of lengths
m and n, a single invocation in which no hook reports an error and the
target's callback reports no error executes exactly the m before-hooks in
registration order, then the target exactly once, then exactly the n
after-hooks in registration order, ending in exactly one terminal delivery,
with no hook skipped or repeated and nothing thrown. -/
theorem hooks_C4_success_runs_all (bhs ahs : List Hook)
    (tgt : List JSVal → List JSVal) (args : List JSVal)
    (hb : ∀ hk ∈ bhs, goodHook hk) (ha : ∀ hk ∈ ahs, goodHook hk)
    (ht : targetSucceeds tgt) :
    shapeOf (invokeHooked bhs ahs tgt args) =
      (List.range bhs.length).map EventShape.b ++
        EventShape.t :: ((List.range ahs.length).map EventShape.a ++
          [EventShape.d]) :=
  invoke_success_shape bhs ahs tgt args hb (fun hk h => (ha hk h).1) ht

/-- Witness for C4 at one pass-through before-hook, one pass-through
after-hook and a succeeding target. -/
theorem hooks_C4_witness :
    shapeOf (invokeHooked [passHook1] [passHook1] tgtNull [JSVal.func 0]) =
      (List.range 1).map EventShape.b ++
        EventShape.t :: ((List.range 1).map EventShape.a ++
          [EventShape.d]) :=
  hooks_C4_success_runs_all [passHook1] [passHook1] tgtNull [JSVal.func 0]
    (by
      intro hk h
      rw [List.mem_singleton] at h
      subst h
      exact ⟨Nat.one_pos, fun v => rfl⟩)
    (by
      intro hk h
      rw [List.mem_singleton] at h
      subst h
      exact ⟨Nat.one_pos, fun v => rfl⟩)
    (fun v => rfl)

/-- Claim C7: when every hook calls its continuation exactly once (built
into the hook model), the target's callback fires exactly once (built into
the target model) and no zero-parameter hook is registered, the original
caller's terminal callback is invoked exactly once, and no configuration
error is thrown. -/
theorem hooks_C7_single_delivery (bhs ahs : List Hook)
    (tgt : List JSVal → List JSVal) (args : List JSVal)
    (hb : ∀ hk ∈ bhs, 0 < hk.arity) (ha : ∀ hk ∈ ahs, 0 < hk.arity) :
    (deliveriesOf (invokeHooked bhs ahs tgt args)).length = 1 ∧
      thrownOf (invokeHooked bhs ahs tgt args) = [] :=
  runBeforeAux_delivers_once ahs tgt bhs JSVal.null 0 args args hb ha

/-- Witness for C7: even with an erroring before-hook the terminal callback
fires exactly once. -/
theorem hooks_C7_witness :
    (deliveriesOf (invokeHooked [errHookBoom] [passHook1] tgtNull
      [JSVal.func 0])).length = 1 ∧
      thrownOf (invokeHooked [errHookBoom] [passHook1] tgtNull
        [JSVal.func 0]) = [] :=
  hooks_C7_single_delivery [errHookBoom] [passHook1] tgtNull [JSVal.func 0]
    (by
      intro hk h
      rw [List.mem_singleton] at h
      subst h
      exact Nat.one_pos)
    (by
      intro hk h
      rw [List.mem_singleton] at h
      subst h
      exact Nat.one_pos)

/-- Claim C5: if the before-hook at index i reports an Error through its
continuation, then the invocation's whole trace consists of the before-hooks
0..i (each receiving the original vector with the continuation in the last
slot) followed by exactly one terminal delivery of that error: no later
before-hook, no target invocation and no after-hook occurs. -/
theorem hooks_C5_before_error_aborts (pre post ahs : List Hook) (eh : Hook)
    (tgt : List JSVal → List JSVal) (args : List JSVal) (msg : String)
    (hpre : ∀ hk ∈ pre, goodHook hk) (har : 0 < eh.arity)
    (herr : ∀ v, argOrUndef (eh.respond v) 0 = JSVal.error msg) :
    invokeHooked (pre ++ eh :: post) ahs tgt args =
      ((List.range (pre.length + 1)).map fun k =>
        Event.beforeCall k (args.set (args.length - 1) JSVal.cont))
      ++ [Event.deliver [JSVal.error msg]] := by
  unfold invokeHooked
  rw [runBeforeAux_split ahs tgt JSVal.null pre (eh :: post) 0 args args rfl hpre]
  have har' : eh.arity ≠ 0 := Nat.pos_iff_ne_zero.mp har
  simp only [runBeforeAux, isError, Bool.false_eq_true, if_false, har', herr,
    runBeforeAux_err]
  rw [List.range_succ, List.map_append, List.append_assoc]
  simp [List.range_eq_range']

/-- Witness for C5: a good hook, then an erroring hook, then another hook;
only indices 0 and 1 run and the error is delivered once. -/
theorem hooks_C5_witness :
    invokeHooked ([passHook1] ++ errHookBoom :: [passHook1]) [passHook1]
      tgtNull [JSVal.func 0] =
      ((List.range 2).map fun k =>
        Event.beforeCall k ([JSVal.func 0].set 0 JSVal.cont))
      ++ [Event.deliver [JSVal.error "boom"]] :=
  hooks_C5_before_error_aborts [passHook1] [passHook1] [passHook1]
    errHookBoom tgtNull [JSVal.func 0] "boom"
    (by
      intro hk h
      rw [List.mem_singleton] at h
      subst h
      exact ⟨Nat.one_pos, fun v => rfl⟩)
    Nat.one_pos
    (fun v => rfl)

end HooksJS

namespace HooksJS

/-- Claim C1 (code bug, evaluated at the failing input): after-hook 0
reports the Error "boom" through its continuation, yet after-hook 1 still
executes and the terminal callback is finally invoked with NO arguments
instead of that error.  The source's after-hook continuation
(src/hooks.js line 202) passes the enclosing `error` instead of
`afterHookError` to the recursive call, so the reported error is dropped;
the before-hook continuation (line 131) correctly passes `beforeHookError`. -/
theorem hooks_C1_after_error_swallowed :
    invokeHooked [] [errHookBoom, passHook1] tgtOk
      [JSVal.num 1, JSVal.func 0] =
      [Event.targetCall [JSVal.num 1, JSVal.cont],
       Event.afterCall 0 [JSVal.null, JSVal.str "ok", JSVal.cont],
       Event.afterCall 1 [JSVal.cont],
       Event.deliver []] := rfl

/-- Claim C3 as stated is false: the target's callback reports the truthy
non-Error first argument "boom", yet the after-hook still executes (the
engine only aborts on `instanceof Error`, src/hooks.js line 171). -/
theorem hooks_C3_counterexample :
    truthy (JSVal.str "boom") = true ∧
      afterCallsOf (invokeHooked [] [passHook1] tgtStrBoom [JSVal.func 0]) =
        [(0, [JSVal.str "boom", JSVal.cont])] ∧
      deliveriesOf (invokeHooked [] [passHook1] tgtStrBoom [JSVal.func 0]) =
        [[JSVal.str "boom"]] := by
  refine ⟨by decide, rfl, rfl⟩

/-- Claim C3 amended: if the target invokes its trailing callback with an
Error INSTANCE as first argument, then no after-hook executes and the
original caller's terminal callback is invoked exactly once with just that
error. -/
theorem hooks_C3_target_error_skips_after (bhs ahs : List Hook)
    (tgt : List JSVal → List JSVal) (args : List JSVal) (msg : String)
    (hb : ∀ hk ∈ bhs, goodHook hk)
    (ht : ∀ v, argOrUndef (tgt v) 0 = JSVal.error msg) :
    shapeOf (invokeHooked bhs ahs tgt args) =
      (List.range bhs.length).map EventShape.b ++
        [EventShape.t, EventShape.d] ∧
    deliveriesOf (invokeHooked bhs ahs tgt args) = [[JSVal.error msg]] ∧
    afterCallsOf (invokeHooked bhs ahs tgt args) = [] := by
  unfold invokeHooked
  rw [runBeforeAux_run_all _ _ JSVal.null _ _ _ _ rfl hb]
  simp only [runOriginalFunction, runAfterHook, ht, runAfterAux_err]
  refine ⟨?_, ?_, ?_⟩
  · simp [shapeOf_map_b, List.range_eq_range', eventShape]
  · simp [deliveriesOf_map_b]
  · simp [afterCallsOf_map_b]

/-- Witness for the amended C3 at one good before-hook, one after-hook and
a target reporting the Error "boom". -/
theorem hooks_C3_witness :
    shapeOf (invokeHooked [passHook1] [passHook1] tgtErrBoom [JSVal.func 0]) =
      (List.range 1).map EventShape.b ++ [EventShape.t, EventShape.d] ∧
    deliveriesOf (invokeHooked [passHook1] [passHook1] tgtErrBoom
      [JSVal.func 0]) = [[JSVal.error "boom"]] ∧
    afterCallsOf (invokeHooked [passHook1] [passHook1] tgtErrBoom
      [JSVal.func 0]) = [] :=
  hooks_C3_target_error_skips_after [passHook1] [passHook1] tgtErrBoom
    [JSVal.func 0] "boom"
    (by
      intro hk h
      rw [List.mem_singleton] at h
      subst h
      exact ⟨Nat.one_pos, fun v => rfl⟩)
    (fun v => rfl)

theorem runAfterAux_vec_exact (e : JSVal) (rem : List Hook) (j : Nat)
    (c : List JSVal) (p : Nat × List JSVal)
    (hp : p ∈ afterCallsOf (runAfterAux e rem j c)) :
    j ≤ p.1 ∧ p.2 = threadAfter (rem.take (p.1 - j)) c ++ [JSVal.cont] := by
  induction rem generalizing j c with
  | nil =>
    by_cases he : isError e <;> simp [runAfterAux, he, afterCallsOf] at hp
  | cons hk rest ih =>
    by_cases he : isError e
    · simp [runAfterAux, he, afterCallsOf] at hp
    · by_cases har : hk.arity = 0
      · simp [runAfterAux, he, har, afterCallsOf] at hp
      · simp only [runAfterAux, he, Bool.false_eq_true, if_false, har,
          afterCallsOf_a, List.mem_cons] at hp
        rcases hp with hp | hp
        · rw [hp]
          exact ⟨Nat.le_refl j, by simp [threadAfter]⟩
        · obtain ⟨h1, h2⟩ := ih (j + 1) _ hp
          refine ⟨by omega, ?_⟩
          have hj : p.1 - j = (p.1 - (j + 1)) + 1 := by omega
          rw [hj, List.take_succ_cons]
          simpa [threadAfter] using h2

theorem runBeforeAux_afterVec_exact (aft : List Hook)
    (tgt : List JSVal → List JSVal) (e : JSVal) (rem : List Hook) (i0 : Nat)
    (orig cur : List JSVal) (p : Nat × List JSVal)
    (hp : p ∈ afterCallsOf (runBeforeAux aft tgt e rem i0 orig cur)) :
    p.2 = threadAfter (aft.take p.1)
        (afterEntry orig (threadCur orig rem cur) tgt) ++ [JSVal.cont] := by
  induction rem generalizing e i0 cur with
  | nil =>
    by_cases he : isError e
    · cases e <;> simp [isError] at he
      all_goals simp [runBeforeAux_err, afterCallsOf] at hp
    · rw [runBeforeAux_nil_ok _ _ _ _ _ _ (Bool.eq_false_iff.mpr he)] at hp
      simp only [runOriginalFunction, runAfterHook, afterCallsOf_t] at hp
      have h := runAfterAux_vec_exact _ _ _ _ _ hp
      simpa [afterEntry, threadCur] using h.2
  | cons hk rest ih =>
    by_cases he : isError e
    · cases e <;> simp [isError] at he
      all_goals simp [runBeforeAux_err, afterCallsOf] at hp
    · by_cases har : hk.arity = 0
      · simp [runBeforeAux, he, har, afterCallsOf] at hp
      · simp only [runBeforeAux, he, Bool.false_eq_true, if_false, har,
          afterCallsOf_b] at hp
        have h := ih _ _ _ hp
        simpa [threadCur] using h

/-- Claim C8: every before-hook call vector is the original call-time
argument vector with its last slot replaced by the engine's continuation,
while the after-hook at index j is called with exactly the CURRENT result
vector — the after-chain entry vector threaded through the overrides of
after-hooks 0..j-1 — with the continuation appended after all current
result values (the vector is extended by one slot, not replaced in its
last slot). -/
theorem hooks_C8_call_vector_shapes :
    (∀ (bhs ahs : List Hook) (tgt : List JSVal → List JSVal)
        (args : List JSVal) (p : Nat × List JSVal),
        p ∈ beforeCallsOf (invokeHooked bhs ahs tgt args) →
        p.2 = args.set (args.length - 1) JSVal.cont) ∧
    (∀ (bhs ahs : List Hook) (tgt : List JSVal → List JSVal)
        (args : List JSVal) (p : Nat × List JSVal),
        p ∈ afterCallsOf (invokeHooked bhs ahs tgt args) →
        p.2 = threadAfter (ahs.take p.1)
            (afterEntry args (threadCur args bhs args) tgt) ++ [JSVal.cont]) :=
  ⟨fun bhs ahs tgt args p hp =>
      runBeforeAux_vec ahs tgt JSVal.null bhs 0 args args p hp,
   fun bhs ahs tgt args p hp =>
      runBeforeAux_afterVec_exact ahs tgt JSVal.null bhs 0 args args p hp⟩

/-- Witness for C8: one pass-through before-hook; two after-hooks of which
the first overrides the result vector with (null, "A", 5), so after-hook 1
receives exactly "A", 5 plus the appended continuation. -/
theorem hooks_C8_witness :
    (((0 : Nat), ([JSVal.cont] : List JSVal)).2 =
      [JSVal.func 0].set ([JSVal.func 0].length - 1) JSVal.cont) ∧
    (((0 : Nat), ([JSVal.null, JSVal.str "ok", JSVal.cont] : List JSVal)).2 =
      threadAfter ([overrideHookA5, passHook1].take 0)
        (afterEntry [JSVal.func 0]
          (threadCur [JSVal.func 0] [passHook1] [JSVal.func 0]) tgtOk) ++
        [JSVal.cont]) ∧
    (((1 : Nat), ([JSVal.str "A", JSVal.num 5, JSVal.cont] : List JSVal)).2 =
      threadAfter ([overrideHookA5, passHook1].take 1)
        (afterEntry [JSVal.func 0]
          (threadCur [JSVal.func 0] [passHook1] [JSVal.func 0]) tgtOk) ++
        [JSVal.cont]) :=
  ⟨hooks_C8_call_vector_shapes.1 [passHook1] [overrideHookA5, passHook1]
      tgtOk [JSVal.func 0] (0, [JSVal.cont]) (by decide),
   hooks_C8_call_vector_shapes.2 [passHook1] [overrideHookA5, passHook1]
      tgtOk [JSVal.func 0]
      (0, [JSVal.null, JSVal.str "ok", JSVal.cont]) (by decide),
   hooks_C8_call_vector_shapes.2 [passHook1] [overrideHookA5, passHook1]
      tgtOk [JSVal.func 0]
      (1, [JSVal.str "A", JSVal.num 5, JSVal.cont]) (by decide)⟩

end HooksJS

namespace HooksJS

/-- Claim C2 as stated is false at an explicit input: before-hook 0 calls
its continuation with `(null, "A", 5)`, yet before-hook 1 receives the
ORIGINAL leading arguments `"x", 0` — the engine always builds a before-hook
call vector from `originalArguments` (src/hooks.js line 113), not from the
threaded override. -/
theorem hooks_C2_counterexample :
    beforeCallsOf (invokeHooked [overrideHookA5, passHook1] [] tgtNull
      [JSVal.str "x", JSVal.num 0, JSVal.func 0]) =
      [(0, [JSVal.str "x", JSVal.num 0, JSVal.cont]),
       (1, [JSVal.str "x", JSVal.num 0, JSVal.cont])] ∧
    ([JSVal.str "x", JSVal.num 0] : List JSVal) ≠
      [JSVal.str "A", JSVal.num 5] := by
  refine ⟨rfl, by decide⟩

theorem threadCur_append (orig : List JSVal) (l1 l2 : List Hook)
    (c : List JSVal) :
    threadCur orig (l1 ++ l2) c = threadCur orig l2 (threadCur orig l1 c) := by
  induction l1 generalizing c with
  | nil => rfl
  | cons hk rest ih => simp [threadCur, ih]

theorem invoke_targetCalls (bhs ahs : List Hook)
    (tgt : List JSVal → List JSVal) (args : List JSVal)
    (hb : ∀ hk ∈ bhs, goodHook hk) :
    targetCallsOf (invokeHooked bhs ahs tgt args) =
      [if args.length = 0 then threadCur args bhs args
       else setExtend (threadCur args bhs args) (args.length - 1) JSVal.cont] := by
  unfold invokeHooked
  rw [runBeforeAux_run_all _ _ JSVal.null _ _ _ _ rfl hb]
  simp only [targetCallsOf_append, targetCallsOf_map_b, runOriginalFunction,
    runAfterHook, targetCallsOf_t, runAfterAux_targetCalls, List.nil_append]

/-- Claim C2 amended: every before-hook receives the ORIGINAL call-time
leading arguments (with the continuation in the last slot), regardless of
any earlier override; an override `(null, a, b)` by the last before-hook
makes the target receive exactly `a, b` as its leading arguments; and a
hook calling its continuation with no arguments passes the threaded vector
to the target unchanged. -/
theorem hooks_C2_argument_threading :
    (∀ (bhs ahs : List Hook) (tgt : List JSVal → List JSVal)
        (args : List JSVal) (p : Nat × List JSVal),
        p ∈ beforeCallsOf (invokeHooked bhs ahs tgt args) →
        p.2 = args.set (args.length - 1) JSVal.cont) ∧
    (∀ (pre ahs : List Hook) (hov : Hook) (tgt : List JSVal → List JSVal)
        (args vs : List JSVal),
        (∀ hk ∈ pre, goodHook hk) → 0 < hov.arity →
        (∀ w, hov.respond w = JSVal.null :: vs) → vs ≠ [] → args ≠ [] →
        targetCallsOf (invokeHooked (pre ++ [hov]) ahs tgt args) =
          [setExtend vs (args.length - 1) JSVal.cont]) ∧
    (∀ (pre ahs : List Hook) (hpass : Hook) (tgt : List JSVal → List JSVal)
        (args : List JSVal),
        (∀ hk ∈ pre, goodHook hk) → 0 < hpass.arity →
        (∀ w, hpass.respond w = []) → args ≠ [] →
        targetCallsOf (invokeHooked (pre ++ [hpass]) ahs tgt args) =
          [setExtend (threadCur args pre args) (args.length - 1) JSVal.cont]) := by
  refine ⟨?_, ?_, ?_⟩
  · exact fun bhs ahs tgt args p hp =>
      runBeforeAux_vec ahs tgt JSVal.null bhs 0 args args p hp
  · intro pre ahs hov tgt args vs hpre harity hresp hvs hargs
    have hgood : ∀ hk ∈ pre ++ [hov], goodHook hk := by
      intro hk h
      rcases List.mem_append.mp h with h | h
      · exact hpre hk h
      · rw [List.mem_singleton] at h
        subst h
        exact ⟨harity, fun v => by simp [hresp, argOrUndef, isError]⟩
    rw [invoke_targetCalls _ ahs tgt args hgood, threadCur_append]
    have hlen : args.length ≠ 0 := by
      simpa [List.length_eq_zero] using hargs
    have hov1 : overridesArgs (JSVal.null :: vs) = true := by
      have h2 : 0 < vs.length := List.length_pos.mpr hvs
      simp only [overridesArgs, argOrUndef, isNullish, List.getD_cons_zero,
        Bool.true_and, List.length_cons, Bool.not_true, Bool.or_false]
      exact decide_eq_true (by omega)
    simp [threadCur, hresp, hov1, hlen]
  · intro pre ahs hpass tgt args hpre harity hresp hargs
    have hgood : ∀ hk ∈ pre ++ [hpass], goodHook hk := by
      intro hk h
      rcases List.mem_append.mp h with h | h
      · exact hpre hk h
      · rw [List.mem_singleton] at h
        subst h
        exact ⟨harity, fun v => by simp [hresp, argOrUndef, isError]⟩
    rw [invoke_targetCalls _ ahs tgt args hgood, threadCur_append]
    have hlen : args.length ≠ 0 := by
      simpa [List.length_eq_zero] using hargs
    have hov0 : overridesArgs ([] : List JSVal) = false := by
      simp [overridesArgs, argOrUndef, isNullish]
    simp [threadCur, hresp, hov0, hlen]

/-- Witness for the amended C2: part one at the counterexample trace, parts
two and three at a single overriding (resp. pass-through) before-hook. -/
theorem hooks_C2_witness :
    (((0 : Nat), ([JSVal.str "x", JSVal.num 0, JSVal.cont] : List JSVal)).2 =
      [JSVal.str "x", JSVal.num 0, JSVal.func 0].set
        ([JSVal.str "x", JSVal.num 0, JSVal.func 0].length - 1) JSVal.cont) ∧
    targetCallsOf (invokeHooked ([] ++ [overrideHookA5]) [] tgtNull
        [JSVal.str "x", JSVal.num 0, JSVal.func 0]) =
      [setExtend [JSVal.str "A", JSVal.num 5]
        ([JSVal.str "x", JSVal.num 0, JSVal.func 0].length - 1) JSVal.cont] ∧
    targetCallsOf (invokeHooked ([] ++ [passHook1]) [] tgtNull
        [JSVal.str "x", JSVal.num 0, JSVal.func 0]) =
      [setExtend (threadCur [JSVal.str "x", JSVal.num 0, JSVal.func 0] []
          [JSVal.str "x", JSVal.num 0, JSVal.func 0])
        ([JSVal.str "x", JSVal.num 0, JSVal.func 0].length - 1) JSVal.cont] := by
  refine ⟨?_, ?_, ?_⟩
  · exact hooks_C2_argument_threading.1 [overrideHookA5, passHook1] [] tgtNull
      [JSVal.str "x", JSVal.num 0, JSVal.func 0]
      (0, [JSVal.str "x", JSVal.num 0, JSVal.cont]) (by decide)
  · exact hooks_C2_argument_threading.2.1 [] [] overrideHookA5 tgtNull
      [JSVal.str "x", JSVal.num 0, JSVal.func 0] [JSVal.str "A", JSVal.num 5]
      (by intro hk h; exact absurd h (List.not_mem_nil hk))
      (by decide) (fun w => rfl) (by decide) (by decide)
  · exact hooks_C2_argument_threading.2.2 [] [] passHook1 tgtNull
      [JSVal.str "x", JSVal.num 0, JSVal.func 0]
      (by intro hk h; exact absurd h (List.not_mem_nil hk))
      Nat.one_pos (fun w => rfl) (by decide)

end HooksJS

namespace HooksJS

theorem runAfterAux_throw (e : JSVal) (preA postA : List Hook) (zh : Hook)
    (j : Nat) (c : List JSVal) (he : isError e = false)
    (ha : ∀ hk ∈ preA, 0 < hk.arity) (hz : zh.arity = 0) :
    runAfterAux e (preA ++ zh :: postA) j c =
      afterCallSeq preA j c ++ [.thrownErr afterArityMsg] := by
  rw [runAfterAux_split e preA (zh :: postA) j c he ha]
  congr 1
  simp [runAfterAux, he, hz]

/-- Claim C10: a hook declaring zero parameters makes the engine throw
synchronously at the point that hook would run.  Part one: a zero-arity
before-hook at index i ends the trace with the thrown configuration error —
the earlier before-hooks have run, nothing is delivered to the terminal
callback, the target and the after chain never run.  Part two: a zero-arity
after-hook at index j likewise ends the trace with the thrown error after
the before-hooks, the target and the earlier after-hooks, and nothing is
delivered. -/
theorem hooks_C10_zero_arity_throws :
    (∀ (pre post ahs : List Hook) (zh : Hook)
        (tgt : List JSVal → List JSVal) (args : List JSVal),
        (∀ hk ∈ pre, goodHook hk) → zh.arity = 0 →
        invokeHooked (pre ++ zh :: post) ahs tgt args =
          ((List.range pre.length).map fun k =>
            Event.beforeCall k (args.set (args.length - 1) JSVal.cont))
          ++ [Event.thrownErr beforeArityMsg]) ∧
    (∀ (bhs preA postA : List Hook) (zh : Hook)
        (tgt : List JSVal → List JSVal) (args : List JSVal),
        (∀ hk ∈ bhs, goodHook hk) → (∀ hk ∈ preA, 0 < hk.arity) →
        zh.arity = 0 → targetSucceeds tgt →
        shapeOf (invokeHooked bhs (preA ++ zh :: postA) tgt args) =
          (List.range bhs.length).map EventShape.b ++
            EventShape.t :: ((List.range preA.length).map EventShape.a ++
              [EventShape.x]) ∧
        deliveriesOf (invokeHooked bhs (preA ++ zh :: postA) tgt args) = []) := by
  constructor
  · intro pre post ahs zh tgt args hpre hz
    unfold invokeHooked
    rw [runBeforeAux_split ahs tgt JSVal.null pre (zh :: post) 0 args args
      rfl hpre]
    simp [runBeforeAux, isError, hz, List.range_eq_range']
  · intro bhs preA postA zh tgt args hb ha hz ht
    unfold invokeHooked
    rw [runBeforeAux_run_all _ _ JSVal.null _ _ _ _ rfl hb]
    simp only [runOriginalFunction, runAfterHook]
    rw [runAfterAux_throw _ _ _ _ _ _ (ht _) ha hz]
    constructor
    · simp [shapeOf_map_b, afterCallSeq_shape, List.range_eq_range',
        eventShape]
    · simp [deliveriesOf_map_b, afterCallSeq_deliveries]

/-- Witness for C10: a zero-arity before-hook after one good hook, and a
zero-arity after-hook after one good after-hook. -/
theorem hooks_C10_witness :
    invokeHooked ([passHook1] ++ zeroArityHook :: [passHook1]) [passHook1]
      tgtNull [JSVal.func 0] =
      ((List.range 1).map fun k =>
        Event.beforeCall k ([JSVal.func 0].set 0 JSVal.cont))
      ++ [Event.thrownErr beforeArityMsg] ∧
    (shapeOf (invokeHooked [passHook1]
        ([passHook1] ++ zeroArityHook :: [passHook1]) tgtNull [JSVal.func 0]) =
      (List.range 1).map EventShape.b ++
        EventShape.t :: ((List.range 1).map EventShape.a ++ [EventShape.x]) ∧
    deliveriesOf (invokeHooked [passHook1]
        ([passHook1] ++ zeroArityHook :: [passHook1]) tgtNull
        [JSVal.func 0]) = []) := by
  constructor
  · exact hooks_C10_zero_arity_throws.1 [passHook1] [passHook1] [passHook1]
      zeroArityHook tgtNull [JSVal.func 0]
      (by
        intro hk h
        rw [List.mem_singleton] at h
        subst h
        exact ⟨Nat.one_pos, fun v => rfl⟩)
      rfl
  · exact hooks_C10_zero_arity_throws.2 [passHook1] [passHook1] [passHook1]
      zeroArityHook tgtNull [JSVal.func 0]
      (by
        intro hk h
        rw [List.mem_singleton] at h
        subst h
        exact ⟨Nat.one_pos, fun v => rfl⟩)
      (by
        intro hk h
        rw [List.mem_singleton] at h
        subst h
        exact Nat.one_pos)
      rfl
      (fun v => rfl)

end HooksJS

namespace HooksJS

theorem applyReg_hooked (h : HostState) (op : RegOp)
    (hh : _isHookedAlready h = true) :
    (applyReg h op).slot = h.slot ∧
      _isHookedAlready (applyReg h op) = true := by
  have hid : _hook h = h := by simp [_hook, hh]
  cases op with
  | bef fn =>
    constructor
    · simp [applyReg, before, hid]
    · simp [applyReg, before, hid, _isHookedAlready]
  | aft fn =>
    constructor
    · simp [applyReg, after, hid]
    · simpa [applyReg, after, hid, _isHookedAlready] using hh

theorem registerAll_hooked (ops : List RegOp) (h : HostState)
    (hh : _isHookedAlready h = true) :
    (registerAll ops h).slot = h.slot ∧
      _isHookedAlready (registerAll ops h) = true := by
  induction ops generalizing h with
  | nil => exact ⟨rfl, hh⟩
  | cons op rest ih =>
    obtain ⟨h1, h2⟩ := applyReg_hooked h op hh
    obtain ⟨h3, h4⟩ := ih (applyReg h op) h2
    exact ⟨by rw [registerAll, List.foldl_cons, ← registerAll, h3, h1], by
      rw [registerAll, List.foldl_cons, ← registerAll]
      exact h4⟩

theorem applyReg_fresh (op : RegOp) :
    (applyReg freshHost op).slot = MethodSlot.wrapped MethodSlot.original ∧
      _isHookedAlready (applyReg freshHost op) = true := by
  cases op with
  | bef fn => exact ⟨rfl, rfl⟩
  | aft fn => exact ⟨rfl, rfl⟩

/-- Claim C9: installation is idempotent.  Part one: any nonempty sequence
of before/after registrations on a fresh host leaves the method slot wrapped
exactly once — never nested.  Part two: `_hook` is idempotent on every host
state.  Part three: with the tables produced by any registration sequence,
a top-level call whose before-hooks are well formed invokes the target
exactly once. -/
theorem hooks_C9_idempotent_install :
    (∀ ops : List RegOp, ops ≠ [] →
      (registerAll ops freshHost).slot =
        MethodSlot.wrapped MethodSlot.original) ∧
    (∀ h : HostState, _hook (_hook h) = _hook h) ∧
    (∀ (ops : List RegOp) (tgt : List JSVal → List JSVal)
        (args : List JSVal),
      (∀ hk ∈ (registerAll ops freshHost).beforeTbl.getD [], goodHook hk) →
      (targetCallsOf (invokeHooked
        ((registerAll ops freshHost).beforeTbl.getD [])
        ((registerAll ops freshHost).afterTbl.getD [])
        tgt args)).length = 1) := by
  refine ⟨?_, ?_, ?_⟩
  · intro ops hne
    match ops with
    | [] => exact absurd rfl hne
    | op :: rest =>
      obtain ⟨h1, h2⟩ := applyReg_fresh op
      have h3 := registerAll_hooked rest (applyReg freshHost op) h2
      rw [registerAll, List.foldl_cons, ← registerAll, h3.1, h1]
  · intro h
    by_cases hh : h.beforeTbl.isSome <;>
      simp [_hook, _isHookedAlready, _setupHooks, hh]
  · intro ops tgt args hb
    exact invoke_target_once _ _ tgt args hb

/-- Witness for C9 at the single registration of one pass-through
before-hook. -/
theorem hooks_C9_witness :
    (registerAll [RegOp.bef passHook1] freshHost).slot =
      MethodSlot.wrapped MethodSlot.original ∧
    _hook (_hook freshHost) = _hook freshHost ∧
    (targetCallsOf (invokeHooked
      ((registerAll [RegOp.bef passHook1] freshHost).beforeTbl.getD [])
      ((registerAll [RegOp.bef passHook1] freshHost).afterTbl.getD [])
      tgtNull [JSVal.func 0])).length = 1 := by
  refine ⟨?_, ?_, ?_⟩
  · exact hooks_C9_idempotent_install.1 [RegOp.bef passHook1]
      (List.cons_ne_nil _ _)
  · exact hooks_C9_idempotent_install.2.1 freshHost
  · refine hooks_C9_idempotent_install.2.2 [RegOp.bef passHook1] tgtNull
      [JSVal.func 0] ?_
    intro hk h
    have htbl : (registerAll [RegOp.bef passHook1] freshHost).beforeTbl.getD []
        = [passHook1] := rfl
    rw [htbl, List.mem_singleton] at h
    subst h
    exact ⟨Nat.one_pos, fun v => rfl⟩

end HooksJS

namespace HooksJS

theorem countP_filter_ne {α : Type} [DecidableEq α] (tbl : List α)
    (fn g : α) (hg : g ≠ fn) :
    (tbl.filter (fun currFn => decide (currFn ≠ fn))).countP
      (fun c => decide (c = g)) = tbl.countP (fun c => decide (c = g)) := by
  induction tbl with
  | nil => rfl
  | cons a t ih =>
    by_cases ha : a = fn
    · subst ha
      have hf : List.filter (fun currFn => decide (currFn ≠ a)) (a :: t) =
          List.filter (fun currFn => decide (currFn ≠ a)) t := by
        simp [List.filter_cons]
      rw [hf, ih, List.countP_cons]
      simp [Ne.symm hg]
    · have hf : List.filter (fun currFn => decide (currFn ≠ fn)) (a :: t) =
          a :: List.filter (fun currFn => decide (currFn ≠ fn)) t := by
        simp [List.filter_cons, ha]
      rw [hf, List.countP_cons, List.countP_cons, ih]

/-- Claim C6 as stated is false: when the same function object occurs twice
in the list, `removeBefore`/`removeAfter` with that function remove BOTH
occurrences (the source filters with `!==`, src/hooks.js lines 243 and 258),
not exactly one. -/
theorem hooks_C6_counterexample :
    removeBefore [7, 7] (some 7) = ([] : List Nat) ∧
      removeAfter [7, 7] (some 7) = ([] : List Nat) ∧
      (([] : List Nat) ≠ [7]) := by
  refine ⟨rfl, rfl, by decide⟩

/-- Claim C6 amended: `removeBefore(name, fn)` removes EVERY occurrence of
`fn` (matched by identity) from the before list, preserving the order of the
remaining entries and leaving the multiplicity of every other entry
unchanged; `removeBefore(name)` with no function argument empties the list.
The same holds for `removeAfter` over the after list. -/
theorem hooks_C6_remove_all_occurrences {α : Type} [DecidableEq α]
    (tbl : List α) (fn : α) :
    (∀ g ∈ removeBefore tbl (some fn), g ≠ fn) ∧
    (removeBefore tbl (some fn)).Sublist tbl ∧
    (∀ g, g ≠ fn →
      (removeBefore tbl (some fn)).countP (fun c => decide (c = g)) =
        tbl.countP (fun c => decide (c = g))) ∧
    removeBefore tbl none = [] ∧
    (∀ g ∈ removeAfter tbl (some fn), g ≠ fn) ∧
    (removeAfter tbl (some fn)).Sublist tbl ∧
    (∀ g, g ≠ fn →
      (removeAfter tbl (some fn)).countP (fun c => decide (c = g)) =
        tbl.countP (fun c => decide (c = g))) ∧
    removeAfter tbl none = [] := by
  have hmem : ∀ g ∈ tbl.filter (fun currFn => decide (currFn ≠ fn)), g ≠ fn := by
    intro g hg
    exact of_decide_eq_true (List.mem_filter.mp hg).2
  have hcount : ∀ g, g ≠ fn →
      (tbl.filter (fun currFn => decide (currFn ≠ fn))).countP
        (fun c => decide (c = g)) = tbl.countP (fun c => decide (c = g)) :=
    fun g hg => countP_filter_ne tbl fn g hg
  exact ⟨hmem, List.filter_sublist tbl, hcount, rfl, hmem,
    List.filter_sublist tbl, hcount, rfl⟩

/-- Witness for the amended C6 at the list [1, 2, 1] and the function 1. -/
theorem hooks_C6_witness :
    ((2 : Nat) ≠ 1) ∧
    (removeBefore [1, 2, 1] (some 1)).countP (fun c => decide (c = 2)) =
      ([1, 2, 1] : List Nat).countP (fun c => decide (c = 2)) ∧
    (removeAfter [1, 2, 1] (some 1)).countP (fun c => decide (c = 2)) =
      ([1, 2, 1] : List Nat).countP (fun c => decide (c = 2)) := by
  refine ⟨?_, ?_, ?_⟩
  · exact (hooks_C6_remove_all_occurrences [1, 2, 1] 1).1 2 (by decide)
  · exact (hooks_C6_remove_all_occurrences [1, 2, 1] 1).2.2.1 2 (by decide)
  · exact (hooks_C6_remove_all_occurrences [1, 2, 1] 1).2.2.2.2.2.2.1 2
      (by decide)

end HooksJS
